import Mathlib

/-!
Shallow embedding of the `cmd/import-releases` enrichment pipeline of
`blastbeat-api` (file `cmd/import-releases/main.go`), together with proofs
about the claims on its specification.

Go strings are modelled as `List Char`.  Byte-level details that the claims
depend on (UTF-8 length for Go `len`) are modelled explicitly.  Unicode case
mapping (`strings.ToLower` / `strings.ToUpper`) is modelled on the ASCII
range, which is the range exercised by the pipeline and by every claim.
-/

namespace Blastbeat

/-- A Go string, modelled as its sequence of runes. -/
abbrev GoStr := List Char

/-- Convenience conversion from a Lean string literal. -/
def str (s : String) : GoStr := s.toList

/-- Go `unicode.IsSpace` restricted to the Latin-1 range:
tab, newline, vertical tab, form feed, carriage return, space,
next line (U+0085) and no-break space (U+00A0). -/
def isGoSpace (c : Char) : Bool :=
  c == ' ' || c == Char.ofNat 9 || c == Char.ofNat 10 || c == Char.ofNat 11 ||
  c == Char.ofNat 12 || c == Char.ofNat 13 || c == Char.ofNat 133 || c == Char.ofNat 160

/-- The whitespace class of Go regexp `\s`, i.e. `[\t\n\f\r ]`. -/
def isRegexSpace (c : Char) : Bool :=
  c == ' ' || c == Char.ofNat 9 || c == Char.ofNat 10 ||
  c == Char.ofNat 12 || c == Char.ofNat 13

/-- Go `strings.TrimSpace`: drop leading and trailing whitespace. -/
def goTrimSpace (l : GoStr) : GoStr :=
  ((l.dropWhile isGoSpace).reverse.dropWhile isGoSpace).reverse

/-- Go `strings.Contains s pat`: `pat` occurs as a contiguous substring of `s`. -/
def containsSub (pat : GoStr) : GoStr → Bool
  | [] => pat.isEmpty
  | c :: rest => pat.isPrefixOf (c :: rest) || containsSub pat rest

/-- Go `strings.ToLower`, modelled on the ASCII range (`Char.toLower`). -/
def strToLower (l : GoStr) : GoStr := l.map Char.toLower

/-- Go `strings.ToUpper`, modelled on the ASCII range (`Char.toUpper`). -/
def strToUpper (l : GoStr) : GoStr := l.map Char.toUpper

/-- Number of bytes of the UTF-8 encoding of a rune; Go `len` of a one-rune
string.  Used to model Go byte-length checks on strings. -/
def utf8Len (c : Char) : Nat :=
  if c.toNat < 128 then 1
  else if c.toNat < 2048 then 2
  else if c.toNat < 65536 then 3
  else 4

/-- Go `len` of a string: total number of UTF-8 bytes. -/
def goLen (l : GoStr) : Nat := (l.map utf8Len).sum

/-! ### The normalizer `norm` (main.go lines 1738-1758) -/

/-- The character mapping of the `strings.NewReplacer` call inside `norm`.
The first four replacement pairs in the source map the ASCII apostrophe and
the ASCII double quote to themselves (identity); the remaining pairs fold
en/em dashes to `-`, the ampersand to `" and "` and ten Latin diacritics to
their ASCII base letter.  All replacer keys are single runes, so the
replacer is a per-rune substitution. -/
def replChar (c : Char) : GoStr :=
  if c = Char.ofNat 39 then [Char.ofNat 39]
  else if c = '"' then ['"']
  else if c = '–' then ['-']
  else if c = '—' then ['-']
  else if c = '&' then [' ', 'a', 'n', 'd', ' ']
  else if c = 'é' then ['e']
  else if c = 'è' then ['e']
  else if c = 'á' then ['a']
  else if c = 'à' then ['a']
  else if c = 'ó' then ['o']
  else if c = 'ö' then ['o']
  else if c = 'ü' then ['u']
  else if c = 'í' then ['i']
  else if c = 'ï' then ['i']
  else if c = 'ç' then ['c']
  else [c]

/-- The character filter of `norm`: keep only `[a-z0-9 ]`. -/
def allowedB (c : Char) : Bool :=
  ('a' ≤ c && c ≤ 'z') || ('0' ≤ c && c ≤ '9') || c == ' '

/-- Go `strings.TrimPrefix s "the "`. -/
def trimThe (l : GoStr) : GoStr :=
  if ['t', 'h', 'e', ' '].isPrefixOf l then l.drop 4 else l

/-- Worker for `collapseWs`.  The flag records whether we are inside a
whitespace run whose single replacement space was already emitted. -/
def collapseAux : Bool → GoStr → GoStr
  | _, [] => []
  | inRun, c :: rest =>
    if isRegexSpace c then
      if inRun then collapseAux true rest else ' ' :: collapseAux true rest
    else c :: collapseAux false rest

/-- Go `regexp.MustCompile(s+).ReplaceAllString(s, " ")` (for the `\s+`
pattern): replace every maximal whitespace run by a single space. -/
def collapseWs (l : GoStr) : GoStr := collapseAux false l

/-- `norm` (main.go lines 1738-1758): lowercase the trimmed input, apply the
replacer, strip a leading `"the "`, keep only `[a-z0-9 ]`, collapse
whitespace runs and trim again. -/
def norm (s : GoStr) : GoStr :=
  goTrimSpace (collapseWs
    (List.filter allowedB
      (trimThe (((goTrimSpace s).map Char.toLower).flatMap replChar))))

/-- `releaseKey` (main.go lines 622-624): `date|norm(artist)|norm(album)`. -/
def releaseKey (date artist album : GoStr) : GoStr :=
  date ++ '|' :: norm artist ++ '|' :: norm album

/-! ### `computeScore` (main.go lines 790-802)

`math.Log1p(float64(followers))` is modelled as the real logarithm
`Real.log (1 + followers)`; for every representable `int64` follower count
the float64 computation and the real one agree on the floor taken below,
since `ln` of an integer in that range is never within float rounding
distance of an integer. -/

/-- The value `int(math.Floor(math.Log1p(float64(followers))))`. -/
noncomputable def log1pFloor (followers : ℤ) : ℤ :=
  ⌊Real.log (1 + (followers : ℝ))⌋

/-- `computeScore` (main.go lines 790-802). -/
noncomputable def computeScore (followers popularity : ℤ) : ℤ :=
  let l := log1pFloor followers
  if l > popularity then
    if l > 100 then 100 else l
  else popularity

/-! ### Canonical form of `norm` output -/

lemma allowed_char_cases (c : Char) (h : allowedB c = true) :
    (97 ≤ c.toNat ∧ c.toNat ≤ 122) ∨ (48 ≤ c.toNat ∧ c.toNat ≤ 57) ∨ c = ' ' := by
  unfold allowedB at h
  simp only [Bool.or_eq_true, Bool.and_eq_true, decide_eq_true_eq, beq_iff_eq,
    or_assoc] at h
  rcases h with ⟨h1, h2⟩ | ⟨h1, h2⟩ | h
  · exact Or.inl ⟨h1, h2⟩
  · exact Or.inr (Or.inl ⟨h1, h2⟩)
  · exact Or.inr (Or.inr h)

lemma space_allowed : allowedB ' ' = true := by decide

lemma isGoSpace_eq_false_of_allowed (c : Char) (h : allowedB c = true) (hs : c ≠ ' ') :
    isGoSpace c = false := by
  rcases allowed_char_cases c h with h1 | h1 | h1
  · unfold isGoSpace
    simp only [Bool.or_eq_false_iff, beq_eq_false_iff_ne, ne_eq, and_assoc]
    refine ⟨?_, ?_, ?_, ?_, ?_, ?_, ?_, ?_⟩ <;> (rintro rfl; revert h1; decide)
  · unfold isGoSpace
    simp only [Bool.or_eq_false_iff, beq_eq_false_iff_ne, ne_eq, and_assoc]
    refine ⟨?_, ?_, ?_, ?_, ?_, ?_, ?_, ?_⟩ <;> (rintro rfl; revert h1; decide)
  · exact absurd h1 hs

lemma isRegexSpace_eq_false_of_allowed (c : Char) (h : allowedB c = true) (hs : c ≠ ' ') :
    isRegexSpace c = false := by
  rcases allowed_char_cases c h with h1 | h1 | h1
  · unfold isRegexSpace
    simp only [Bool.or_eq_false_iff, beq_eq_false_iff_ne, ne_eq, and_assoc]
    refine ⟨?_, ?_, ?_, ?_, ?_⟩ <;> (rintro rfl; revert h1; decide)
  · unfold isRegexSpace
    simp only [Bool.or_eq_false_iff, beq_eq_false_iff_ne, ne_eq, and_assoc]
    refine ⟨?_, ?_, ?_, ?_, ?_⟩ <;> (rintro rfl; revert h1; decide)
  · exact absurd h1 hs

lemma eq_space_of_allowed_of_regexSpace (c : Char) (h : allowedB c = true)
    (hw : isRegexSpace c = true) : c = ' ' := by
  by_cases hs : c = ' '
  · exact hs
  · rw [isRegexSpace_eq_false_of_allowed c h hs] at hw
    cases hw

lemma toLower_of_allowed (c : Char) (h : allowedB c = true) : Char.toLower c = c := by
  rcases allowed_char_cases c h with h1 | h1 | h1
  · unfold Char.toLower
    rw [if_neg]
    omega
  · unfold Char.toLower
    rw [if_neg]
    omega
  · subst h1; decide

lemma replChar_of_allowed (c : Char) (h : allowedB c = true) : replChar c = [c] := by
  rcases allowed_char_cases c h with h1 | h1 | h1
  · unfold replChar
    repeat rw [if_neg (by rintro rfl; revert h1; decide)]
  · unfold replChar
    repeat rw [if_neg (by rintro rfl; revert h1; decide)]
  · subst h1; decide

/-- Adjacent characters are never both whitespace. -/
def NoTwoWs (l : GoStr) : Prop :=
  l.Chain' (fun a b => ¬(isRegexSpace a = true ∧ isRegexSpace b = true))

lemma dropWhile_eq_self_of (p : Char → Bool) (l : GoStr)
    (h : ∀ c ∈ l.head?, p c = false) : l.dropWhile p = l := by
  cases l with
  | nil => rfl
  | cons c rest =>
    have := h c rfl
    simp [List.dropWhile_cons, this]

lemma head?_dropWhile (p : Char → Bool) (l : GoStr) :
    ∀ c ∈ (l.dropWhile p).head?, p c = false := by
  induction l with
  | nil => intro c hc; cases hc
  | cons a rest ih =>
    intro c hc
    by_cases hp : p a
    · rw [List.dropWhile_cons_of_pos hp] at hc
      exact ih c hc
    · rw [List.dropWhile_cons_of_neg hp] at hc
      cases hc
      exact Bool.eq_false_iff.mpr hp

lemma isPrefix_head? {l p : GoStr} (h : p <+: l) (hne : p ≠ []) : p.head? = l.head? := by
  obtain ⟨t, rfl⟩ := h
  cases p with
  | nil => exact absurd rfl hne
  | cons c rest => rfl

lemma goTrimSpace_infixOf (l : GoStr) : goTrimSpace l <:+: l := by
  unfold goTrimSpace
  have h1 : l.dropWhile isGoSpace <:+ l := List.dropWhile_suffix _
  have h2 : ((l.dropWhile isGoSpace).reverse.dropWhile isGoSpace).reverse <+:
      l.dropWhile isGoSpace := by
    have h0 := List.reverse_prefix.mpr
      (@List.dropWhile_suffix Char (l.dropWhile isGoSpace).reverse isGoSpace)
    rwa [List.reverse_reverse] at h0
  obtain ⟨t1, ht1⟩ := h2
  obtain ⟨s2, hs2⟩ := h1
  exact ⟨s2, t1, by rw [List.append_assoc, ht1]; exact hs2⟩

lemma goTrimSpace_head (l : GoStr) :
    ∀ c ∈ (goTrimSpace l).head?, isGoSpace c = false := by
  intro c hc
  unfold goTrimSpace at hc
  have hne : ((l.dropWhile isGoSpace).reverse.dropWhile isGoSpace).reverse ≠ [] := by
    intro he
    rw [he] at hc
    cases hc
  have hpre : ((l.dropWhile isGoSpace).reverse.dropWhile isGoSpace).reverse <+:
      l.dropWhile isGoSpace := by
    have h0 := List.reverse_prefix.mpr
      (@List.dropWhile_suffix Char (l.dropWhile isGoSpace).reverse isGoSpace)
    rwa [List.reverse_reverse] at h0
  rw [isPrefix_head? hpre hne] at hc
  exact head?_dropWhile _ _ c hc

lemma goTrimSpace_getLast (l : GoStr) :
    ∀ c ∈ (goTrimSpace l).getLast?, isGoSpace c = false := by
  intro c hc
  unfold goTrimSpace at hc
  rw [List.getLast?_reverse] at hc
  exact head?_dropWhile _ _ c hc

lemma goTrimSpace_eq_self (l : GoStr)
    (h1 : ∀ c ∈ l.head?, isGoSpace c = false)
    (h2 : ∀ c ∈ l.getLast?, isGoSpace c = false) : goTrimSpace l = l := by
  unfold goTrimSpace
  rw [dropWhile_eq_self_of _ _ h1]
  rw [dropWhile_eq_self_of]
  · exact l.reverse_reverse
  · intro c hc
    rw [List.head?_reverse] at hc
    exact h2 c hc

lemma collapseAux_all_allowed (b : Bool) (l : GoStr)
    (hall : ∀ c ∈ l, allowedB c = true) : ∀ c ∈ collapseAux b l, allowedB c = true := by
  induction l generalizing b with
  | nil => intro c hc; cases hc
  | cons a rest ih =>
    have ha : allowedB a = true := hall a (List.mem_cons_self a rest)
    have hrest : ∀ c ∈ rest, allowedB c = true := fun c hc => hall c (List.mem_cons_of_mem a hc)
    intro c hc
    unfold collapseAux at hc
    by_cases hw : isRegexSpace a
    · rw [if_pos hw] at hc
      cases b with
      | true => exact ih true hrest c hc
      | false =>
        rw [if_neg Bool.false_ne_true] at hc
        rcases List.mem_cons.mp hc with rfl | hc
        · exact space_allowed
        · exact ih true hrest c hc
    · rw [if_neg hw] at hc
      rcases List.mem_cons.mp hc with rfl | hc
      · exact ha
      · exact ih false hrest c hc

lemma head?_collapseAux_true (l : GoStr) :
    ∀ c ∈ (collapseAux true l).head?, isRegexSpace c = false := by
  induction l with
  | nil => intro c hc; cases hc
  | cons a rest ih =>
    intro c hc
    unfold collapseAux at hc
    by_cases hw : isRegexSpace a
    · rw [if_pos hw] at hc
      exact ih c hc
    · rw [if_neg hw] at hc
      cases hc
      exact Bool.eq_false_iff.mpr hw

lemma collapseAux_chain (b : Bool) (l : GoStr) : NoTwoWs (collapseAux b l) := by
  induction l generalizing b with
  | nil => exact List.chain'_nil
  | cons a rest ih =>
    unfold collapseAux
    by_cases hw : isRegexSpace a
    · rw [if_pos hw]
      cases b with
      | true => exact ih true
      | false =>
        rw [if_neg Bool.false_ne_true]
        rw [NoTwoWs, List.chain'_cons']
        refine ⟨?_, ih true⟩
        intro y hy ⟨_, hy2⟩
        rw [head?_collapseAux_true rest y hy] at hy2
        cases hy2
    · rw [if_neg hw]
      rw [NoTwoWs, List.chain'_cons']
      refine ⟨?_, ih false⟩
      intro y _ hcontra
      exact hw hcontra.1

lemma collapseAux_cons (b : Bool) (c : Char) (rest : GoStr) :
    collapseAux b (c :: rest) =
      if isRegexSpace c then
        if b then collapseAux true rest else ' ' :: collapseAux true rest
      else c :: collapseAux false rest := rfl

lemma collapseAux_true_eq (l : GoStr) :
    collapseAux true l = collapseAux false (l.dropWhile isRegexSpace) := by
  induction l with
  | nil => rfl
  | cons a rest ih =>
    by_cases hw : isRegexSpace a
    · rw [List.dropWhile_cons_of_pos hw, collapseAux_cons, if_pos hw, if_pos rfl]
      exact ih
    · rw [List.dropWhile_cons_of_neg hw, collapseAux_cons, if_neg hw,
        collapseAux_cons false a rest, if_neg hw]

lemma collapseWs_eq_self (l : GoStr) (hall : ∀ c ∈ l, allowedB c = true)
    (hch : NoTwoWs l) : collapseWs l = l := by
  unfold collapseWs
  induction l with
  | nil => rfl
  | cons a rest ih =>
    have ha : allowedB a = true := hall a (List.mem_cons_self a rest)
    have hrest : ∀ c ∈ rest, allowedB c = true := fun c hc => hall c (List.mem_cons_of_mem a hc)
    rw [NoTwoWs, List.chain'_cons'] at hch
    unfold collapseAux
    by_cases hw : isRegexSpace a
    · rw [if_pos hw]
      rw [if_neg Bool.false_ne_true]
      have ha' : a = ' ' := eq_space_of_allowed_of_regexSpace a ha hw
      rw [collapseAux_true_eq, dropWhile_eq_self_of]
      · rw [ih hrest hch.2, ha']
      · intro c hc
        by_contra hcc
        exact hch.1 c hc ⟨hw, Bool.not_eq_false _ |>.mp hcc⟩
    · rw [if_neg hw]
      rw [ih hrest hch.2]

/-- The output of `norm` uses only `[a-z0-9 ]`, never has two adjacent
whitespace characters and neither starts nor ends with whitespace. -/
lemma norm_canonical (s : GoStr) :
    (∀ c ∈ norm s, allowedB c = true) ∧ NoTwoWs (norm s) ∧
    (∀ c ∈ (norm s).head?, isGoSpace c = false) ∧
    (∀ c ∈ (norm s).getLast?, isGoSpace c = false) := by
  unfold norm
  set x := trimThe (((goTrimSpace s).map Char.toLower).flatMap replChar) with hx
  refine ⟨?_, ?_, goTrimSpace_head _, goTrimSpace_getLast _⟩
  · intro c hc
    have hc' : c ∈ collapseWs (List.filter allowedB x) :=
      (goTrimSpace_infixOf _).subset hc
    exact collapseAux_all_allowed false _ (fun d hd => (List.mem_filter.mp hd).2) c hc'
  · exact List.Chain'.infix (collapseAux_chain false _) (goTrimSpace_infixOf _)

lemma flatMap_eq_self (l : GoStr) (h : ∀ c ∈ l, replChar c = [c]) :
    l.flatMap replChar = l := by
  induction l with
  | nil => rfl
  | cons a rest ih =>
    rw [List.flatMap_cons, h a (List.mem_cons_self a rest),
      ih (fun c hc => h c (List.mem_cons_of_mem a hc))]
    rfl

lemma map_toLower_eq_self (l : GoStr) (h : ∀ c ∈ l, Char.toLower c = c) :
    l.map Char.toLower = l := by
  induction l with
  | nil => rfl
  | cons a rest ih =>
    rw [List.map_cons, h a (List.mem_cons_self a rest),
      ih (fun c hc => h c (List.mem_cons_of_mem a hc))]

/-- Applying `norm` a second time only re-strips a leading `"the "`: on any
canonical-form input that does not start with `"the "`, `norm` is the
identity. -/
lemma norm_eq_self (l : GoStr)
    (hall : ∀ c ∈ l, allowedB c = true) (hch : NoTwoWs l)
    (hhd : ∀ c ∈ l.head?, isGoSpace c = false)
    (hlast : ∀ c ∈ l.getLast?, isGoSpace c = false)
    (hthe : ¬ (['t', 'h', 'e', ' '].isPrefixOf l = true)) : norm l = l := by
  unfold norm
  rw [goTrimSpace_eq_self l hhd hlast,
    map_toLower_eq_self l (fun c hc => toLower_of_allowed c (hall c hc)),
    flatMap_eq_self l (fun c hc => replChar_of_allowed c (hall c hc))]
  unfold trimThe
  rw [if_neg hthe, List.filter_eq_self.mpr hall, collapseWs_eq_self l hall hch,
    goTrimSpace_eq_self l hhd hlast]

/-! ### Facts about `log1pFloor` -/

lemma log1pFloor_nonneg (f : ℤ) (h0 : 0 ≤ f) : 0 ≤ log1pFloor f := by
  unfold log1pFloor
  have hl : (0 : ℝ) ≤ Real.log (1 + (f : ℝ)) := by
    refine Real.log_nonneg ?_
    have : (0 : ℝ) ≤ (f : ℝ) := by exact_mod_cast h0
    linarith
  exact Int.le_floor.mpr (by exact_mod_cast hl)

lemma log1pFloor_le_100 (f : ℤ) (h0 : 0 ≤ f) (h1 : f < 2 ^ 63) :
    log1pFloor f ≤ 100 := by
  unfold log1pFloor
  have hf0 : (0 : ℝ) ≤ (f : ℝ) := by exact_mod_cast h0
  have hle : (1 + (f : ℝ)) ≤ 2 ^ 63 := by
    have : (f : ℝ) ≤ 2 ^ 63 - 1 := by
      have : f ≤ 2 ^ 63 - 1 := by omega
      exact_mod_cast this
    linarith
  have hlog : Real.log (1 + (f : ℝ)) < 101 := by
    have s1 : Real.log (1 + (f : ℝ)) ≤ Real.log ((2 : ℝ) ^ (63 : ℕ)) := by
      refine Real.log_le_log (by linarith) ?_
      norm_num at hle ⊢
      linarith
    have s2 : Real.log ((2 : ℝ) ^ (63 : ℕ)) = 63 * Real.log 2 := Real.log_pow 2 63
    have s3 : Real.log 2 < 0.6931471808 := Real.log_two_lt_d9
    calc Real.log (1 + (f : ℝ)) ≤ Real.log ((2 : ℝ) ^ (63 : ℕ)) := s1
      _ = 63 * Real.log 2 := s2
      _ < 101 := by nlinarith
  have : ⌊Real.log (1 + (f : ℝ))⌋ < 101 := Int.floor_lt.mpr (by exact_mod_cast hlog)
  omega

lemma log_22026_lb : (9 : ℝ) ≤ Real.log 22026 := by
  rw [Real.le_log_iff_exp_le (by norm_num)]
  have h1 : Real.exp 9 = Real.exp 1 ^ (9 : ℕ) := by
    rw [← Real.exp_nat_mul]; norm_num
  have h2 : Real.exp 1 ^ (9 : ℕ) ≤ 2.7182818286 ^ (9 : ℕ) :=
    pow_le_pow_left₀ (Real.exp_pos 1).le Real.exp_one_lt_d9.le 9
  have h3 : (2.7182818286 : ℝ) ^ (9 : ℕ) ≤ 22026 := by norm_num
  rw [h1]
  linarith

lemma log_22026_ub : Real.log 22026 < 10 := by
  rw [Real.log_lt_iff_lt_exp (by norm_num)]
  have h1 : Real.exp 10 = Real.exp 1 ^ (10 : ℕ) := by
    rw [← Real.exp_nat_mul]; norm_num
  have h2 : (2.7182818283 : ℝ) ^ (10 : ℕ) < Real.exp 1 ^ (10 : ℕ) :=
    pow_lt_pow_left₀ Real.exp_one_gt_d9 (by norm_num) (by norm_num)
  have h3 : (22026 : ℝ) < 2.7182818283 ^ (10 : ℕ) := by norm_num
  rw [h1]
  linarith

/-- On the spec example input 22025 the floored log is 9, not 10:
`e^10 = 22026.46...` exceeds `22026`, so `ln 22026 < 10`. -/
lemma log1pFloor_22025 : log1pFloor 22025 = 9 := by
  unfold log1pFloor
  have he : (1 + ((22025 : ℤ) : ℝ)) = 22026 := by norm_num
  rw [he, Int.floor_eq_iff]
  constructor
  · exact_mod_cast log_22026_lb
  · have := log_22026_ub
    push_cast
    linarith

lemma log1pFloor_zero : log1pFloor 0 = 0 := by
  unfold log1pFloor
  norm_num [Real.log_one]

/-! ### Claim theorems for C2, C3 and C6 -/

/-- Claim C2, as stated, is false on the code at its own example input:
`computeScore 22025 5` is `9`, not `10`, because
`floor(ln(1+22025)) = floor(ln 22026) = 9`. -/
theorem claim_C2_counterexample : computeScore 22025 5 ≠ 10 := by
  simp only [computeScore]
  rw [log1pFloor_22025]
  decide

/-- Claim C2 (amended): for every follower count representable as a
non-negative `int64` and every popularity, `computeScore` equals
`max(popularity, min(100, floor(ln(1+followers))))`; at the spec example
`followers = 22025, popularity = 5` the score is therefore `9`, not `10`. -/
theorem claim_C2 (f pop : ℤ) (h0 : 0 ≤ f) (h1 : f < 2 ^ 63) :
    computeScore f pop = max pop (min 100 (log1pFloor f)) := by
  have h100 := log1pFloor_le_100 f h0 h1
  simp only [computeScore]
  split_ifs <;> omega

theorem claim_C2_witness :
    computeScore 22025 5 = max 5 (min 100 (log1pFloor 22025)) :=
  claim_C2 22025 5 (by norm_num) (by norm_num)

/-- Claim C3, as stated, is false on the code: `norm` is not idempotent.
On `"-the cure"` the first pass drops the dash after the prefix check,
exposing a leading `"the "` that only the second pass strips. -/
theorem claim_C3_counterexample :
    norm (norm (str "-the cure")) ≠ norm (str "-the cure") := by decide

/-- Claim C3 (amended): `norm` is idempotent on every input whose
normalized form does not begin with `"the "` (characters dropped by the
filter can expose a fresh leading `"the "`, which a second application
strips again). -/
theorem claim_C3 (x : GoStr)
    (h : ¬ (['t', 'h', 'e', ' '].isPrefixOf (norm x) = true)) :
    norm (norm x) = norm x := by
  obtain ⟨hall, hch, hhd, hlast⟩ := norm_canonical x
  exact norm_eq_self (norm x) hall hch hhd hlast h

theorem claim_C3_witness :
    ¬ (['t', 'h', 'e', ' '].isPrefixOf (norm (str "Crüxshadows")) = true) ∧
    norm (norm (str "Crüxshadows")) = norm (str "Crüxshadows") :=
  ⟨by decide, claim_C3 (str "Crüxshadows") (by decide)⟩

/-- Claim C6, as stated, is false on the code: the score is not clamped
to 100 when the provider-reported popularity itself exceeds 100.
With followers 0 and popularity 150 the score is 150. -/
theorem claim_C6_counterexample : 100 < computeScore 0 150 := by
  simp only [computeScore]
  rw [log1pFloor_zero]
  decide

/-- Claim C6 (amended): for every non-negative follower count and every
popularity already in `[0,100]` the score lies in `[0,100]`; the follower
count alone can never push the score above 100, but an out-of-range
popularity value is passed through unclamped. -/
theorem claim_C6 (f pop : ℤ) (h0 : 0 ≤ f) (hp0 : 0 ≤ pop) (hp1 : pop ≤ 100) :
    0 ≤ computeScore f pop ∧ computeScore f pop ≤ 100 := by
  have hl := log1pFloor_nonneg f h0
  simp only [computeScore]
  split_ifs <;> omega

theorem claim_C6_witness :
    0 ≤ computeScore 0 50 ∧ computeScore 0 50 ≤ 100 :=
  claim_C6 0 50 (by norm_num) (by norm_num) (by norm_num)

/-! ### Run-scoped deduplication in the worker loop (main.go lines 214-283)

The mutex around the test-and-insert on the `seen` set makes each claim of a
key atomic, so every concurrent execution is equivalent to some sequential
order of the per-record claim steps.  `runWorkers` processes the records of
one such linearized order against the shared `seen` set (a `map[string]bool`,
modelled as the list of its keys) and records, per record, its key and
whether it proceeded to enrichment or was emitted as `dupe_skip`. -/

/-- Outcome of the dedup gate for one dequeued record. -/
inductive DedupOutcome
  /-- The key was already in the run-scoped set: `dupe_skip`, no enrichment. -/
  | dupeSkip
  /-- The key was inserted and the record proceeded to enrichment. -/
  | enriched
deriving DecidableEq

/-- One input record as seen by a worker: date, artist, album. -/
abbrev WorkRow := GoStr × GoStr × GoStr

/-- The worker-loop dedup gate (main.go lines 219-236), linearized: test the
key against the shared set; on a hit emit `dupe_skip` and continue, otherwise
insert the key and enrich. -/
def runWorkers (seen : List GoStr) : List WorkRow → List (GoStr × DedupOutcome)
  | [] => []
  | r :: rs =>
    let k := releaseKey r.1 r.2.1 r.2.2
    if k ∈ seen then (k, .dupeSkip) :: runWorkers seen rs
    else (k, .enriched) :: runWorkers (k :: seen) rs

/-- Predicate: an outcome entry is an enrichment of key `k`. -/
def isEnrichOf (k : GoStr) (p : GoStr × DedupOutcome) : Bool :=
  p.1 == k && p.2 == DedupOutcome.enriched

lemma runWorkers_countP_eq_zero (rows : List WorkRow) (seen : List GoStr)
    (k : GoStr) (hk : k ∈ seen) :
    (runWorkers seen rows).countP (isEnrichOf k) = 0 := by
  induction rows generalizing seen with
  | nil => rfl
  | cons r rs ih =>
    unfold runWorkers
    by_cases hmem : releaseKey r.1 r.2.1 r.2.2 ∈ seen
    · rw [if_pos hmem, List.countP_cons]
      have : isEnrichOf k (releaseKey r.1 r.2.1 r.2.2, DedupOutcome.dupeSkip) = false := by
        unfold isEnrichOf
        simp only [Bool.and_eq_false_iff]
        right
        decide
      rw [this]
      simp [ih seen hk]
    · rw [if_neg hmem, List.countP_cons]
      have hne : isEnrichOf k (releaseKey r.1 r.2.1 r.2.2, DedupOutcome.enriched) = false := by
        unfold isEnrichOf
        simp only [Bool.and_eq_false_iff, beq_eq_false_iff_ne, ne_eq]
        left
        intro he
        exact hmem (he ▸ hk)
      rw [hne, if_neg Bool.false_ne_true, Nat.add_zero]
      exact ih (releaseKey r.1 r.2.1 r.2.2 :: seen) (List.mem_cons_of_mem _ hk)

lemma runWorkers_countP_le_one (rows : List WorkRow) (seen : List GoStr)
    (k : GoStr) :
    (runWorkers seen rows).countP (isEnrichOf k) ≤ 1 := by
  induction rows generalizing seen with
  | nil => exact Nat.zero_le 1
  | cons r rs ih =>
    unfold runWorkers
    by_cases hmem : releaseKey r.1 r.2.1 r.2.2 ∈ seen
    · rw [if_pos hmem, List.countP_cons]
      have : isEnrichOf k (releaseKey r.1 r.2.1 r.2.2, DedupOutcome.dupeSkip) = false := by
        unfold isEnrichOf
        simp only [Bool.and_eq_false_iff]
        right
        decide
      rw [this]
      simpa using ih seen
    · rw [if_neg hmem, List.countP_cons]
      by_cases hk : releaseKey r.1 r.2.1 r.2.2 = k
      · subst hk
        have h0 := runWorkers_countP_eq_zero rs
          (releaseKey r.1 r.2.1 r.2.2 :: seen) _ (List.mem_cons_self _ _)
        rw [h0]
        simp [isEnrichOf]
      · have : isEnrichOf k (releaseKey r.1 r.2.1 r.2.2, DedupOutcome.enriched) = false := by
          unfold isEnrichOf
          simp only [Bool.and_eq_false_iff, beq_eq_false_iff_ne, ne_eq]
          exact Or.inl hk
        rw [this]
        simpa using ih (releaseKey r.1 r.2.1 r.2.2 :: seen)

lemma runWorkers_dupe_of_seen (rows : List WorkRow) (seen : List GoStr)
    (k : GoStr) (hk : k ∈ seen) :
    (runWorkers seen rows).countP (fun p => p.1 == k) =
      (runWorkers seen rows).countP
        (fun p => p.1 == k && p.2 == DedupOutcome.dupeSkip) := by
  induction rows generalizing seen with
  | nil => rfl
  | cons r rs ih =>
    unfold runWorkers
    by_cases hmem : releaseKey r.1 r.2.1 r.2.2 ∈ seen
    · rw [if_pos hmem, List.countP_cons, List.countP_cons]
      simp only [beq_self_eq_true, Bool.and_true]
      rw [ih seen hk]
    · rw [if_neg hmem, List.countP_cons, List.countP_cons]
      have hk' : releaseKey r.1 r.2.1 r.2.2 ≠ k := fun he => hmem (he ▸ hk)
      simp only [beq_eq_false_iff_ne.mpr hk', Bool.false_and, cond_false, Nat.add_zero]
      exact ih (releaseKey r.1 r.2.1 r.2.2 :: seen) (List.mem_cons_of_mem _ hk)

/-- Two records that normalize to the same dedup key. -/
def dupeRows : List WorkRow :=
  [(str "2025-01-01", str "The Cure", str "Songs"),
   (str "2025-01-01", str "cure", str "songs")]

/-- The shared dedup key of `dupeRows`. -/
def dupeKey : GoStr := releaseKey (str "2025-01-01") (str "The Cure") (str "Songs")

/-- Claim C1: within a single run (any linearization of the worker loops),
at most one record per dedup key proceeds to enrichment, and once a key is
in the run-scoped set every record carrying that key is emitted as
`dupe_skip` — none of them is enriched. -/
theorem claim_C1 (rows : List WorkRow) (seen : List GoStr) (k : GoStr)
    (hk : k ∈ seen) :
    (runWorkers [] rows).countP (isEnrichOf k) ≤ 1 ∧
    (runWorkers seen rows).countP (isEnrichOf k) = 0 ∧
    (runWorkers seen rows).countP (fun p => p.1 == k) =
      (runWorkers seen rows).countP
        (fun p => p.1 == k && p.2 == DedupOutcome.dupeSkip) :=
  ⟨runWorkers_countP_le_one rows [] k,
   runWorkers_countP_eq_zero rows seen k hk,
   runWorkers_dupe_of_seen rows seen k hk⟩

theorem claim_C1_witness :
    (runWorkers [] dupeRows).countP (isEnrichOf dupeKey) ≤ 1 ∧
    (runWorkers [dupeKey] dupeRows).countP (isEnrichOf dupeKey) = 0 ∧
    (runWorkers [dupeKey] dupeRows).countP (fun p => p.1 == dupeKey) =
      (runWorkers [dupeKey] dupeRows).countP
        (fun p => p.1 == dupeKey && p.2 == DedupOutcome.dupeSkip) :=
  claim_C1 dupeRows [dupeKey] dupeKey (List.mem_cons_self _ _)

/-! ### Genre lists and the merge (main.go lines 1093-1121, 1770-1801, 578-586) -/

/-- Go `strings.ReplaceAll(s, " / ", "/")`: non-overlapping left-to-right
replacement of the three-character pattern. -/
def replaceSlashSp : GoStr → GoStr
  | ' ' :: '/' :: ' ' :: rest => '/' :: replaceSlashSp rest
  | c :: rest => c :: replaceSlashSp rest
  | [] => []

/-- The three sequential `strings.ReplaceAll` calls of `parseMAGenres`
replacing each of `/`, `,`, `;` by `|`.  Since each key is a single rune
and the produced `|` is not itself replaced again, the sequence equals one
per-rune substitution. -/
def sepToPipe (c : Char) : Char :=
  if c = '/' ∨ c = ',' ∨ c = ';' then '|' else c

/-- The trim/skip-empty/deduplicate loop of `parseMAGenres`
(main.go lines 1106-1120). -/
def dedupNonempty (seen : List GoStr) : List GoStr → List GoStr
  | [] => []
  | p :: ps =>
    let q := goTrimSpace p
    if q = [] ∨ q ∈ seen then dedupNonempty seen ps
    else q :: dedupNonempty (q :: seen) ps

/-- `parseMAGenres` (main.go lines 1093-1121): lowercase, fold separators
to `|`, split, trim each part, drop empties, deduplicate in encounter
order. -/
def parseMAGenres (s : GoStr) : List GoStr :=
  if s = [] then []
  else dedupNonempty [] (((replaceSlashSp (strToLower s)).map sepToPipe).splitOn '|')

/-- The lower/trim/skip-empty/deduplicate loop of `normalizeList`
(main.go lines 1770-1785). -/
def normalizeListAux (seen : List GoStr) : List GoStr → List GoStr
  | [] => []
  | s :: rest =>
    let q := strToLower (goTrimSpace s)
    if q = [] ∨ q ∈ seen then normalizeListAux seen rest
    else q :: normalizeListAux (q :: seen) rest

/-- `normalizeList` (main.go lines 1770-1785). -/
def normalizeList (l : List GoStr) : List GoStr := normalizeListAux [] l

/-- First-seen deduplication with an explicit seen set. -/
def dedupAux (seen : List GoStr) : List GoStr → List GoStr
  | [] => []
  | s :: rest =>
    if s ∈ seen then dedupAux seen rest else s :: dedupAux (s :: seen) rest

/-- `unionPreserve` (main.go lines 1787-1801): iterate the three lists in
order against one shared seen set; equivalently, first-seen deduplication
of their concatenation. -/
def unionPreserve (a b c : List GoStr) : List GoStr := dedupAux [] (a ++ b ++ c)

/-- The genre merge as worded by the spec: union of the three lists in
priority order, case-insensitive deduplication (entries compared and kept
lowercased, as in the spec example), first-seen order preserved. -/
def specGenreMerge (reg sec pri : List GoStr) : List GoStr :=
  dedupAux [] ((reg ++ sec ++ pri).map strToLower)

lemma dedupAux_cons (seen : List GoStr) (s : GoStr) (rest : List GoStr) :
    dedupAux seen (s :: rest) =
      if s ∈ seen then dedupAux seen rest else s :: dedupAux (s :: seen) rest := rfl

lemma normalizeListAux_cons (seen : List GoStr) (s : GoStr) (rest : List GoStr) :
    normalizeListAux seen (s :: rest) =
      if strToLower (goTrimSpace s) = [] ∨ strToLower (goTrimSpace s) ∈ seen then
        normalizeListAux seen rest
      else strToLower (goTrimSpace s) :: normalizeListAux (strToLower (goTrimSpace s) :: seen) rest := rfl

/-- On lists of trimmed non-empty entries, `normalizeList` is first-seen
deduplication after lowercasing. -/
lemma normalizeListAux_eq_dedupAux (l : List GoStr) :
    ∀ seen, (∀ s ∈ l, s ≠ [] ∧ goTrimSpace s = s) →
      normalizeListAux seen l = dedupAux seen (l.map strToLower) := by
  induction l with
  | nil => intro seen _; rfl
  | cons s rest ih =>
    intro seen hl
    obtain ⟨hne, htr⟩ := hl s (List.mem_cons_self s rest)
    have hrest := fun x hx => hl x (List.mem_cons_of_mem s hx)
    have hqe : strToLower (goTrimSpace s) = strToLower s := by rw [htr]
    have hq : strToLower s ≠ [] := by
      intro he
      exact hne (List.map_eq_nil_iff.mp he)
    rw [normalizeListAux_cons, List.map_cons, dedupAux_cons, hqe]
    by_cases hmem : strToLower s ∈ seen
    · rw [if_pos (Or.inr hmem), if_pos hmem]
      exact ih seen hrest
    · rw [if_neg (by rintro (h | h); exact hq h; exact hmem h), if_neg hmem]
      rw [ih (strToLower s :: seen) hrest]

/-- Deduplicating a segment first does not change the result of an outer
deduplication whose seen set covers the inner one. -/
lemma dedupAux_absorb (x' : List GoStr) :
    ∀ (s t r : List GoStr), (∀ y ∈ t, y ∈ s) →
      dedupAux s (dedupAux t x' ++ r) = dedupAux s (x' ++ r) := by
  induction x' with
  | nil => intro s t r _; rfl
  | cons x rest ih =>
    intro s t r hts
    rw [dedupAux_cons t x rest]
    by_cases hxt : x ∈ t
    · rw [if_pos hxt, ih s t r hts, List.cons_append, dedupAux_cons,
        if_pos (hts x hxt)]
    · rw [if_neg hxt, List.cons_append, List.cons_append, dedupAux_cons, dedupAux_cons]
      by_cases hxs : x ∈ s
      · rw [if_pos hxs, if_pos hxs]
        refine ih s (x :: t) r ?_
        intro y hy
        rcases List.mem_cons.mp hy with rfl | hy
        · exact hxs
        · exact hts y hy
      · rw [if_neg hxs, if_neg hxs]
        congr 1
        refine ih (x :: s) (x :: t) r ?_
        intro y hy
        rcases List.mem_cons.mp hy with rfl | hy
        · exact List.mem_cons_self _ _
        · exact List.mem_cons_of_mem _ (hts y hy)

/-- Rewriting under a common processed prefix. -/
lemma dedupAux_congr_suffix (p : List GoStr) :
    ∀ (s : List GoStr) (m m' : List GoStr),
      (∀ s', dedupAux s' m = dedupAux s' m') →
      dedupAux s (p ++ m) = dedupAux s (p ++ m') := by
  induction p with
  | nil => intro s m m' h; exact h s
  | cons x rest ih =>
    intro s m m' h
    rw [List.cons_append, List.cons_append, dedupAux_cons, dedupAux_cons]
    by_cases hxs : x ∈ s
    · rw [if_pos hxs, if_pos hxs]
      exact ih s m m' h
    · rw [if_neg hxs, if_neg hxs]
      congr 1
      exact ih (x :: s) m m' h

/-- Claim C4: the merged genre list of a record equals the spec-side merge
(union in registry/secondary/primary priority, case-insensitive first-seen
deduplication).  The registry list is the output of `parseMAGenres`, hence
already lowercased; the secondary and primary lists pass through
`normalizeList` (main.go lines 578, 585, 1489), so the equality is stated
for genre entries that are trimmed and non-empty. -/
theorem claim_C4 (reg sec pri : List GoStr)
    (hreg : ∀ s ∈ reg, strToLower s = s)
    (hsec : ∀ s ∈ sec, s ≠ [] ∧ goTrimSpace s = s)
    (hpri : ∀ s ∈ pri, s ≠ [] ∧ goTrimSpace s = s) :
    unionPreserve reg (normalizeList sec) (normalizeList pri) =
      specGenreMerge reg sec pri := by
  unfold unionPreserve specGenreMerge normalizeList
  rw [normalizeListAux_eq_dedupAux sec [] hsec,
    normalizeListAux_eq_dedupAux pri [] hpri]
  have hmapreg : reg.map strToLower = reg := by
    induction reg with
    | nil => rfl
    | cons x rest ih =>
      rw [List.map_cons, hreg x (List.mem_cons_self x rest),
        ih (fun s hs => hreg s (List.mem_cons_of_mem x hs))]
  rw [List.map_append, List.map_append, hmapreg]
  rw [List.append_assoc, List.append_assoc]
  rw [dedupAux_congr_suffix reg [] (dedupAux [] (sec.map strToLower) ++ dedupAux [] (pri.map strToLower)) (sec.map strToLower ++ pri.map strToLower) ?h]
  case h =>
    intro s'
    rw [dedupAux_absorb (sec.map strToLower) s' [] _ (by intro y hy; cases hy)]
    refine dedupAux_congr_suffix (sec.map strToLower) s' _ _ ?_
    intro s''
    have := dedupAux_absorb (pri.map strToLower) s'' [] [] (by intro y hy; cases hy)
    rwa [List.append_nil, List.append_nil] at this

theorem claim_C4_witness :
    unionPreserve (parseMAGenres (str "Death Metal"))
      (normalizeList [str "death metal", str "Doom"])
      (normalizeList [str "black metal"]) =
      [str "death metal", str "doom", str "black metal"] := by
  have h := claim_C4 (parseMAGenres (str "Death Metal"))
    [str "death metal", str "Doom"] [str "black metal"]
    (by decide) (by decide) (by decide)
  rw [h]
  decide

/-! ### Startup credential validation (main.go lines 70-95, 117-133, 804-839) -/

/-- The environment variables consulted by `validateEnvVars` and
`findYouTubePreview`; the empty string models an unset variable, exactly as
Go `os.Getenv` reports it. -/
structure Env where
  spotifyClientID : GoStr
  spotifyClientSecret : GoStr
  discogsToken : GoStr
  youtubeAPIKey : GoStr

/-- `validateEnvVars` (main.go lines 70-95): collect the names of unset
variables; `some missing` models the returned error.  All four variables,
including `YOUTUBE_API_KEY` and `DISCOGS_TOKEN`, are required. -/
def validateEnvVars (e : Env) : Option (List GoStr) :=
  let missing :=
    (if e.spotifyClientID = [] then [str "SPOTIFY_CLIENT_ID"] else []) ++
    (if e.spotifyClientSecret = [] then [str "SPOTIFY_CLIENT_SECRET"] else []) ++
    (if e.discogsToken = [] then [str "DISCOGS_TOKEN"] else []) ++
    (if e.youtubeAPIKey = [] then [str "YOUTUBE_API_KEY"] else [])
  if missing = [] then none else some missing

/-- `main` calls `log.Fatalf` before opening the input or processing any
record when `validateEnvVars` returns an error (main.go lines 131-133). -/
def startupFatal (e : Env) : Bool := (validateEnvVars e).isSome

/-- `findYouTubePreview` (main.go lines 804-839): with an empty key the
function returns no link without querying; otherwise the first search hit
yields the canonical watch URL.  The provider response is abstracted as the
video id the search would return. -/
def findYouTubePreview (e : Env) (videoID : Option GoStr) : GoStr :=
  if e.youtubeAPIKey = [] then []
  else
    match videoID with
    | none => []
    | some v => str "https://www.youtube.com/watch?v=" ++ v

/-- An environment with every credential except the video-provider key. -/
def envNoYoutube : Env :=
  { spotifyClientID := str "id"
    spotifyClientSecret := str "secret"
    discogsToken := str "token"
    youtubeAPIKey := [] }

/-- Claim C8, as stated, is false on the code: a run configured without
`YOUTUBE_API_KEY` is aborted at startup — `validateEnvVars` reports the key
as missing and `main` treats that as fatal. -/
theorem claim_C8_counterexample :
    startupFatal envNoYoutube = true ∧
    validateEnvVars envNoYoutube = some [str "YOUTUBE_API_KEY"] := by
  constructor
  · rfl
  · rfl

/-- Claim C8 (amended): the video-provider key is in fact a required
credential — any configuration lacking it is rejected as a fatal startup
error — even though `findYouTubePreview` itself would degrade gracefully
(returning no preview link) were the key empty at enrichment time. -/
theorem claim_C8 (e : Env) (vid : Option GoStr) (h : e.youtubeAPIKey = []) :
    startupFatal e = true ∧ findYouTubePreview e vid = [] := by
  constructor
  · unfold startupFatal validateEnvVars
    rw [if_pos h, if_neg (by simp)]
    rfl
  · unfold findYouTubePreview
    rw [if_pos h]

theorem claim_C8_witness :
    startupFatal envNoYoutube = true ∧ findYouTubePreview envNoYoutube none = [] :=
  claim_C8 envNoYoutube none rfl

/-! ### Country resolution (main.go lines 533-576, 1492-1575, 1577-1736) -/

/-- The name→ISO table of `countryNameToISO` (main.go lines 1663-1719). -/
def countryMap : List (GoStr × GoStr) :=
  [(str "united states", str "US"), (str "united states of america", str "US"),
   (str "usa", str "US"), (str "united kingdom", str "GB"), (str "uk", str "GB"),
   (str "great britain", str "GB"), (str "germany", str "DE"), (str "sweden", str "SE"),
   (str "norway", str "NO"), (str "finland", str "FI"), (str "denmark", str "DK"),
   (str "france", str "FR"), (str "italy", str "IT"), (str "spain", str "ES"),
   (str "portugal", str "PT"), (str "netherlands", str "NL"), (str "belgium", str "BE"),
   (str "switzerland", str "CH"), (str "austria", str "AT"), (str "poland", str "PL"),
   (str "czech republic", str "CZ"), (str "czechia", str "CZ"), (str "russia", str "RU"),
   (str "greece", str "GR"), (str "turkey", str "TR"), (str "japan", str "JP"),
   (str "china", str "CN"), (str "south korea", str "KR"), (str "australia", str "AU"),
   (str "new zealand", str "NZ"), (str "canada", str "CA"), (str "mexico", str "MX"),
   (str "brazil", str "BR"), (str "argentina", str "AR"), (str "chile", str "CL"),
   (str "south africa", str "ZA"), (str "israel", str "IL"), (str "india", str "IN"),
   (str "indonesia", str "ID"), (str "thailand", str "TH"), (str "philippines", str "PH"),
   (str "ireland", str "IE"), (str "iceland", str "IS"), (str "estonia", str "EE"),
   (str "latvia", str "LV"), (str "lithuania", str "LT"), (str "ukraine", str "UA"),
   (str "belarus", str "BY"), (str "romania", str "RO"), (str "bulgaria", str "BG"),
   (str "croatia", str "HR"), (str "serbia", str "RS"), (str "slovenia", str "SI"),
   (str "slovakia", str "SK"), (str "hungary", str "HU")]

/-- `countryNameToISO` (main.go lines 1655-1736): trim, look the lowercased
name up in the table, else accept any 2-byte string uppercased as an ISO
code, else give up. -/
def countryNameToISO (name : GoStr) : GoStr :=
  if name = [] then []
  else
    let t := goTrimSpace name
    match List.lookup (strToLower t) countryMap with
    | some code => code
    | none => if goLen t = 2 then strToUpper t else []

/-- Result shaping of `lookupCountryFromMetalArchives` (main.go lines
1077-1090): the scraped "Country of origin" field (already tag-stripped and
unescaped), if present and non-empty, is mapped through `countryNameToISO`. -/
def maCountry (found : Option GoStr) : GoStr :=
  match found with
  | none => []
  | some name => if name = [] then [] else countryNameToISO name

/-- Result shaping of `lookupCountryFromMusicBrainz` (main.go lines
1544-1575): the first ISO-3166-1 code of the area is uppercased and
returned verbatim; with no codes, a non-empty area name is mapped through
`countryNameToISO`. -/
def mbCountry (areaCodes : List GoStr) (areaName : GoStr) : GoStr :=
  match areaCodes with
  | code :: _ => strToUpper code
  | [] => if areaName = [] then [] else countryNameToISO areaName

/-- Result shaping of `lookupCountryFromDiscogsArtist` (main.go lines
1635-1652): the regex capture from the artist profile, trimmed, is mapped
through `countryNameToISO`. -/
def discogsCountry (capture : Option GoStr) : GoStr :=
  match capture with
  | none => []
  | some m => countryNameToISO (goTrimSpace m)

/-- The provider data feeding the country chain of one record. -/
structure CountrySources where
  maName : Option GoStr
  mbAreaCodes : List GoStr
  mbAreaName : GoStr
  discogsProfileMatch : Option GoStr

/-- The country fallback chain of `enrichRelease` (main.go lines 533-576):
registry first, then the music-graph service, then the secondary catalog;
the first non-empty result wins. -/
def countryChain (d : CountrySources) : GoStr :=
  let c1 := maCountry d.maName
  if c1 ≠ [] then c1
  else
    let c2 := mbCountry d.mbAreaCodes d.mbAreaName
    if c2 ≠ [] then c2
    else discogsCountry d.discogsProfileMatch

lemma toNat_ofNat_of_lt (n : Nat) (h : n < 128) : (Char.ofNat n).toNat = n := by
  rw [Char.ofNat, dif_pos (Or.inl (by omega : n < 0xd800))]
  simp [Char.toNat, Char.ofNatAux, UInt32.toNat, UInt32.ofNat', BitVec.toNat_ofNatLt]

lemma utf8Len_toUpper (c : Char) : utf8Len (Char.toUpper c) = utf8Len c := by
  unfold Char.toUpper
  by_cases h : c.toNat ≥ 97 ∧ c.toNat ≤ 122
  · rw [if_pos h]
    unfold utf8Len
    rw [toNat_ofNat_of_lt (c.toNat - 32) (by omega)]
    rw [if_pos (by omega), if_pos (by omega)]
  · rw [if_neg h]

lemma goLen_strToUpper (l : GoStr) : goLen (strToUpper l) = goLen l := by
  unfold goLen strToUpper
  induction l with
  | nil => rfl
  | cons c rest ih =>
    simp only [List.map_cons, List.sum_cons]
    rw [utf8Len_toUpper, ih]

lemma lookup_value_mem {l : List (GoStr × GoStr)} {k v : GoStr}
    (h : List.lookup k l = some v) : ∃ k', (k', v) ∈ l := by
  induction l with
  | nil => cases h
  | cons p rest ih =>
    rw [List.lookup] at h
    by_cases hk : k == p.1
    · rw [hk] at h
      cases h
      exact ⟨p.1, by simp⟩
    · rw [Bool.not_eq_true] at hk
      rw [hk] at h
      obtain ⟨k', hk'⟩ := ih h
      exact ⟨k', List.mem_cons_of_mem _ hk'⟩

lemma countryMap_values : ∀ p ∈ countryMap, goLen p.2 = 2 := by decide

lemma countryNameToISO_len (name : GoStr) :
    countryNameToISO name = [] ∨ goLen (countryNameToISO name) = 2 := by
  unfold countryNameToISO
  by_cases hne : name = []
  · rw [if_pos hne]; exact Or.inl rfl
  · rw [if_neg hne]
    simp only []
    cases hlk : List.lookup (strToLower (goTrimSpace name)) countryMap with
    | some code =>
      obtain ⟨k', hk'⟩ := lookup_value_mem hlk
      exact Or.inr (countryMap_values (k', code) hk')
    | none =>
      by_cases h2 : goLen (goTrimSpace name) = 2
      · rw [if_pos h2]
        exact Or.inr ((goLen_strToUpper _).trans h2)
      · rw [if_neg h2]
        exact Or.inl rfl

/-- Claim C9, as stated, is false on the code: the MusicBrainz branch
returns the provider-supplied ISO-3166-1 code verbatim (uppercased), so a
malformed 3-letter code flows into the country field unchanged. -/
theorem claim_C9_counterexample :
    countryChain ⟨none, [str "xyz"], [], none⟩ = str "XYZ" ∧
    countryChain ⟨none, [str "xyz"], [], none⟩ ≠ [] ∧
    goLen (countryChain ⟨none, [str "xyz"], [], none⟩) ≠ 2 := by
  refine ⟨by decide, by decide, by decide⟩

lemma maCountry_len (o : Option GoStr) :
    maCountry o = [] ∨ goLen (maCountry o) = 2 := by
  cases o with
  | none => exact Or.inl rfl
  | some name =>
    simp only [maCountry]
    by_cases hne : name = []
    · rw [if_pos hne]; exact Or.inl rfl
    · rw [if_neg hne]; exact countryNameToISO_len name

lemma mbCountry_len (codes : List GoStr) (areaName : GoStr)
    (h : ∀ code ∈ codes, goLen code = 2) :
    mbCountry codes areaName = [] ∨ goLen (mbCountry codes areaName) = 2 := by
  cases codes with
  | cons code rest =>
    simp only [mbCountry]
    refine Or.inr ?_
    rw [goLen_strToUpper]
    exact h code (List.mem_cons_self _ _)
  | nil =>
    simp only [mbCountry]
    by_cases hne : areaName = []
    · rw [if_pos hne]; exact Or.inl rfl
    · rw [if_neg hne]; exact countryNameToISO_len _

lemma discogsCountry_len (o : Option GoStr) :
    discogsCountry o = [] ∨ goLen (discogsCountry o) = 2 := by
  cases o with
  | none => exact Or.inl rfl
  | some m =>
    simp only [discogsCountry]
    exact countryNameToISO_len _

/-- Claim C9 (amended): the country field is either absent or a 2-letter
code, provided every ISO code in the MusicBrainz area response is itself
2 bytes long; the registry and secondary-catalog paths go through the
name→ISO table (2-letter values) or the 2-byte check and need no
hypothesis. -/
theorem claim_C9 (d : CountrySources)
    (h : ∀ code ∈ d.mbAreaCodes, goLen code = 2) :
    countryChain d = [] ∨ goLen (countryChain d) = 2 := by
  unfold countryChain
  by_cases h1 : maCountry d.maName ≠ []
  · rw [if_pos h1]
    exact maCountry_len d.maName
  · rw [if_neg h1]
    by_cases h2 : mbCountry d.mbAreaCodes d.mbAreaName ≠ []
    · rw [if_pos h2]
      exact mbCountry_len d.mbAreaCodes d.mbAreaName h
    · rw [if_neg h2]
      exact discogsCountry_len d.discogsProfileMatch

theorem claim_C9_witness :
    countryChain ⟨some (str "Sweden"), [], [], none⟩ = [] ∨
    goLen (countryChain ⟨some (str "Sweden"), [], [], none⟩) = 2 :=
  claim_C9 ⟨some (str "Sweden"), [], [], none⟩ (by intro code hc; cases hc)

/-! ### Producer validation, worker outcomes and tallies (main.go 174-348)

The CSV quoting layer is out of scope (the spec treats the reader as an
external collaborator handing over already-split records), so an input is a
list of records, each a list of fields.  `csv.Reader` with
`FieldsPerRecord = 4` returns an error for any record whose field count is
not 4, which the producer counts via `errorCount` (main.go 292-296). -/

/-- A raw input record: its fields. -/
abbrev RawRecord := List GoStr

def isDigit (c : Char) : Bool := 48 ≤ c.toNat && c.toNat ≤ 57

def digitVal (c : Char) : Nat := c.toNat - 48

/-- Gregorian month lengths, as validated by Go `time.Parse`. -/
def daysInMonth (year month : Nat) : Nat :=
  if month = 2 then
    if year % 4 = 0 ∧ (year % 100 ≠ 0 ∨ year % 400 = 0) then 29 else 28
  else if month = 4 ∨ month = 6 ∨ month = 9 ∨ month = 11 then 30
  else 31

/-- Whether Go `time.Parse("2006-01-02", s)` succeeds: exactly
`dddd-dd-dd`, month in 01-12, day in 01..daysInMonth. -/
def dateOk (s : GoStr) : Bool :=
  match s with
  | [y1, y2, y3, y4, '-', m1, m2, '-', d1, d2] =>
    isDigit y1 && isDigit y2 && isDigit y3 && isDigit y4 &&
    isDigit m1 && isDigit m2 && isDigit d1 && isDigit d2 &&
    (let year := ((digitVal y1 * 10 + digitVal y2) * 10 + digitVal y3) * 10 + digitVal y4
     let month := digitVal m1 * 10 + digitVal m2
     let day := digitVal d1 * 10 + digitVal d2
     decide (1 ≤ month) && decide (month ≤ 12) && decide (1 ≤ day) &&
       decide (day ≤ daysInMonth year month))
  | _ => false

/-- What the producer does with one record (main.go 285-327): a wrong
field count is a `csv.Read` error (`errorCount`); empty required fields or
an unparseable date are skipped (`skipCount`); valid records are enqueued
with their dedup key. -/
inductive ProducerFate
  | readErr
  | skipRow
  | enqueue (key : GoStr)
deriving DecidableEq

def produceFate (rec : RawRecord) : ProducerFate :=
  match rec with
  | [d, a, b, _l] =>
    let dateISO := goTrimSpace d
    let artist := goTrimSpace a
    let album := goTrimSpace b
    if dateISO = [] ∨ artist = [] ∨ album = [] then .skipRow
    else if dateOk dateISO = false then .skipRow
    else .enqueue (releaseKey dateISO artist album)
  | _ => .readErr

/-- Outcome of the persist path for one enqueued record (main.go 249-280):
insert succeeded, release already existed, or a database/parse error. -/
inductive WriteOutcome
  | okInsert
  | existsSkip
  | dbErr
deriving DecidableEq

/-- The three aggregator counters (main.go 334-343): `success`,
`skip` (producer skips, `dupe_skip`, `exists_skip`) and `error`. -/
structure Tally where
  success : Nat
  skip : Nat
  error : Nat
deriving DecidableEq

/-- Tally contribution of the worker for one enqueued, non-duplicate
record: dry-run always emits `success`; persist mode defers to the
database outcome, abstracted as an oracle indexed by record number. -/
def workerTally (dryRun : Bool) (oracle : Nat → WriteOutcome) (i : Nat)
    (t : Tally) : Tally :=
  if dryRun then { t with success := t.success + 1 }
  else
    match oracle i with
    | .okInsert => { t with success := t.success + 1 }
    | .existsSkip => { t with skip := t.skip + 1 }
    | .dbErr => { t with error := t.error + 1 }

/-- Seen-set evolution for one record. -/
def stepSeen (seen : List GoStr) : ProducerFate → List GoStr
  | .enqueue k => if k ∈ seen then seen else k :: seen
  | _ => seen

/-- Tally evolution for one record. -/
def stepTally (dryRun : Bool) (oracle : Nat → WriteOutcome) (i : Nat)
    (seen : List GoStr) (t : Tally) : ProducerFate → Tally
  | .readErr => { t with error := t.error + 1 }
  | .skipRow => { t with skip := t.skip + 1 }
  | .enqueue k =>
    if k ∈ seen then { t with skip := t.skip + 1 }
    else workerTally dryRun oracle i t

/-- The whole run, linearized: producer classification, dedup gate and
worker outcome per record, threading the seen set and the counters. -/
def runImportAux (dryRun : Bool) (oracle : Nat → WriteOutcome) :
    List GoStr → Tally → Nat → List RawRecord → Tally
  | _, t, _, [] => t
  | seen, t, i, rec :: rest =>
    runImportAux dryRun oracle (stepSeen seen (produceFate rec))
      (stepTally dryRun oracle i seen t (produceFate rec)) (i + 1) rest

def runImport (dryRun : Bool) (oracle : Nat → WriteOutcome)
    (recs : List RawRecord) : Tally :=
  runImportAux dryRun oracle [] ⟨0, 0, 0⟩ 0 recs

lemma stepTally_sum (dryRun : Bool) (oracle : Nat → WriteOutcome) (i : Nat)
    (seen : List GoStr) (t : Tally) (f : ProducerFate) :
    (stepTally dryRun oracle i seen t f).success +
    (stepTally dryRun oracle i seen t f).skip +
    (stepTally dryRun oracle i seen t f).error =
      t.success + t.skip + t.error + 1 := by
  cases f with
  | readErr => simp [stepTally]; omega
  | skipRow => simp [stepTally]; omega
  | enqueue k =>
    simp only [stepTally]
    by_cases hmem : k ∈ seen
    · rw [if_pos hmem]
      simp
      omega
    · rw [if_neg hmem]
      unfold workerTally
      by_cases hd : dryRun = true
      · rw [if_pos hd]
        simp
        omega
      · rw [if_neg hd]
        cases oracle i <;> simp <;> omega

lemma runImportAux_sum (dryRun : Bool) (oracle : Nat → WriteOutcome)
    (recs : List RawRecord) : ∀ (seen : List GoStr) (t : Tally) (i : Nat),
    (runImportAux dryRun oracle seen t i recs).success +
    (runImportAux dryRun oracle seen t i recs).skip +
    (runImportAux dryRun oracle seen t i recs).error =
      t.success + t.skip + t.error + recs.length := by
  induction recs with
  | nil => intro seen t i; rfl
  | cons rec rest ih =>
    intro seen t i
    simp only [runImportAux]
    rw [ih (stepSeen seen (produceFate rec))
      (stepTally dryRun oracle i seen t (produceFate rec)) (i + 1)]
    rw [stepTally_sum]
    simp [List.length_cons]
    omega

lemma produceFate_readErr_of_len (rec : RawRecord) (h : rec.length ≠ 4) :
    produceFate rec = .readErr := by
  rcases rec with _ | ⟨a, _ | ⟨b, _ | ⟨c, _ | ⟨d, _ | ⟨e, rest⟩⟩⟩⟩⟩
  · rfl
  · rfl
  · rfl
  · rfl
  · exact absurd rfl h
  · rfl

/-- Claim C7 (amended): a malformed row (wrong field count) is counted as
an **error**, not a skip — the error counter increments by exactly one and
the run continues with the remaining records — and for every run the final
tallies satisfy `success + skip + error = number of input records`. -/
theorem claim_C7 (dryRun : Bool) (oracle : Nat → WriteOutcome)
    (recs : List RawRecord) (rec : RawRecord) (h : rec.length ≠ 4)
    (seen : List GoStr) (t : Tally) (i : Nat) :
    ((runImport dryRun oracle recs).success + (runImport dryRun oracle recs).skip +
      (runImport dryRun oracle recs).error = recs.length) ∧
    produceFate rec = .readErr ∧
    runImportAux dryRun oracle seen t i (rec :: recs) =
      runImportAux dryRun oracle seen { t with error := t.error + 1 } (i + 1) recs := by
  have hf := produceFate_readErr_of_len rec h
  refine ⟨?_, hf, ?_⟩
  · unfold runImport
    rw [runImportAux_sum]
    simp
  · simp only [runImportAux, hf]
    rfl

/-- A dry run over three records, the middle one having only 3 columns. -/
def threeColTally : Tally :=
  runImport true (fun _ => .okInsert)
    [[str "2025-01-03", str "Gorguts", str "Obscura", str "Olympic"],
     [str "2025-01-10", str "Ulcerate", str "Stare Into Death"],
     [str "2025-01-17", str "Blood Incantation", str "Absolute Elsewhere", str "Century Media"]]

/-- Claim C7, as stated, is false on the code: the 3-column row increments
the **error** counter, not the skip counter — the skip count stays 0. -/
theorem claim_C7_counterexample :
    threeColTally.skip = 0 ∧ threeColTally.error = 1 ∧ threeColTally.success = 2 := by
  refine ⟨by decide, by decide, by decide⟩

theorem claim_C7_witness :
    ((runImport true (fun _ => .okInsert) []).success +
      (runImport true (fun _ => .okInsert) []).skip +
      (runImport true (fun _ => .okInsert) []).error = ([] : List RawRecord).length) ∧
    produceFate [str "x", str "y", str "z"] = .readErr ∧
    runImportAux true (fun _ => .okInsert) [] ⟨0, 0, 0⟩ 0 [[str "x", str "y", str "z"]] =
      runImportAux true (fun _ => .okInsert) [] ⟨0, 0, 1⟩ 1 [] :=
  claim_C7 true (fun _ => .okInsert) [] [str "x", str "y", str "z"] (by decide)
    [] ⟨0, 0, 0⟩ 0

/-! ### Label website picking (main.go 1319-1453)

`pickOfficialWebsite` extracts URL candidates from noisy entries with the
regex `https?://[^\s'"<>)\]]+`, collects them into a set, sorts by length
then lexicographically, filters known social/media hosts and returns the
first candidate that `normalizeURL` accepts, falling back to the overall
shortest candidate.  `normalizeURL` cuts concatenated URLs at the second
protocol occurrence and rebuilds scheme+host+path+query via `url.Parse`
(modelled here by its splitting behaviour; userinfo, percent-decoding and
parse-error cases of the Go library are not modelled). -/

/-- Length of the protocol match of regex `https?://` at this position. -/
def protoLen (l : GoStr) : Option Nat :=
  if (str "https://").isPrefixOf l then some 8
  else if (str "http://").isPrefixOf l then some 7
  else none

/-- The regex body class `[^\s'"<>)\]]`. -/
def urlCharOk (c : Char) : Bool :=
  !(isRegexSpace c || c == Char.ofNat 39 || c == '"' || c == '<' || c == '>' ||
    c == ')' || c == ']')

/-- All matches of `https?://[^\s'"<>)\]]+` in order
(`FindAllString(raw, -1)`), fuel-indexed for structural recursion; each
step consumes at least one character, so fuel = length suffices. -/
def findURLsAux : Nat → GoStr → List GoStr
  | 0, _ => []
  | _, [] => []
  | fuel + 1, c :: rest =>
    match protoLen (c :: rest) with
    | some n =>
      let body := ((c :: rest).drop n).takeWhile urlCharOk
      if body = [] then findURLsAux fuel rest
      else ((c :: rest).take n ++ body) ::
        findURLsAux fuel (((c :: rest).drop n).dropWhile urlCharOk)
    | none => findURLsAux fuel rest

def findURLs (l : GoStr) : List GoStr := findURLsAux l.length l

/-- Go `strings.TrimRight(u, ".,);]")`. -/
def isJunkTail (c : Char) : Bool :=
  c == '.' || c == ',' || c == ')' || c == ';' || c == ']'

def trimRightJunk (l : GoStr) : GoStr := (l.reverse.dropWhile isJunkTail).reverse

def hasHTTPPrefix (l : GoStr) : Bool :=
  (str "https://").isPrefixOf l || (str "http://").isPrefixOf l

/-- Candidate URLs contributed by one raw entry (main.go 1333-1347): trim,
regex-extract; if nothing matched, a non-empty scheme-less entry gets
`http://` prepended; each match is right-trimmed of junk and kept only
with an http(s) prefix. -/
def entryCands (raw : GoStr) : List GoStr :=
  let t := goTrimSpace raw
  let ms := findURLs t
  let ms2 :=
    if ms = [] ∧ t ≠ [] ∧ containsSub (str "://") t = false
    then [str "http://" ++ t] else ms
  (ms2.map trimRightJunk).filter hasHTTPPrefix

/-- Append-if-new: the list form of `candsMap[u] = struct{}{}`. -/
def insertNew (acc : List GoStr) (u : GoStr) : List GoStr :=
  if u ∈ acc then acc else acc ++ [u]

/-- The candidate set of the whole URL list, in first-seen order (the Go
code stores it in a map whose iteration order is arbitrary; claim C10
shows the arbitrary order is irrelevant). -/
def collectCands (urls : List GoStr) : List GoStr :=
  urls.foldl (fun acc raw => (entryCands raw).foldl insertNew acc) []

/-- Byte-wise lexicographic comparison of Go strings; on the rune level
this is code-point order, which UTF-8 byte order coincides with. -/
def lexLe : GoStr → GoStr → Bool
  | [], _ => true
  | _ :: _, [] => false
  | a :: as, b :: bs => if a < b then true else if b < a then false else lexLe as bs

/-- The sort order of the candidate slice (main.go 1356-1362): by length,
ties lexicographically. -/
def lenLexLe (a b : GoStr) : Bool :=
  if a.length = b.length then lexLe a b else decide (a.length < b.length)

/-- Stable sort by `lenLexLe` (the Go code uses `sort.SliceStable`; any
stable sort by this total order produces the same ascending list). -/
def insertSorted (u : GoStr) : List GoStr → List GoStr
  | [] => [u]
  | v :: rest => if lenLexLe u v then u :: v :: rest else v :: insertSorted u rest

def sortCands : List GoStr → List GoStr
  | [] => []
  | u :: rest => insertSorted u (sortCands rest)

/-- Start positions of `https?://` occurrences
(`FindAllStringIndex(raw, -1)`), fuel-indexed. -/
def protoStartsAux : Nat → GoStr → Nat → List Nat
  | 0, _, _ => []
  | _, [], _ => []
  | fuel + 1, c :: rest, i =>
    match protoLen (c :: rest) with
    | some n => i :: protoStartsAux fuel ((c :: rest).drop n) (i + n)
    | none => protoStartsAux fuel rest (i + 1)

def protoStarts (l : GoStr) : List Nat := protoStartsAux l.length l 0

/-- The reassembly step of `normalizeURL`: split `scheme://rest` into
host, path and query and rebuild scheme+host+path+query, requiring a
non-empty host (model of the relevant behaviour of `net/url.Parse`). -/
def parseCore (scheme rest : GoStr) : GoStr :=
  let host := rest.takeWhile (fun c => !(c == '/' || c == '?' || c == '#'))
  let rest2 := rest.dropWhile (fun c => !(c == '/' || c == '?' || c == '#'))
  let path := rest2.takeWhile (fun c => !(c == '?' || c == '#'))
  let afterPath := rest2.dropWhile (fun c => !(c == '?' || c == '#'))
  let query :=
    match afterPath with
    | '?' :: qs => qs.takeWhile (fun c => !(c == '#'))
    | _ => []
  if host = [] then []
  else scheme ++ str "://" ++ host ++ path ++ (if query ≠ [] then '?' :: query else [])

/-- `normalizeURL` (main.go 1401-1453). -/
def normalizeURL (rawURL : GoStr) : GoStr :=
  if rawURL = [] then []
  else
    let t := goTrimSpace rawURL
    if hasHTTPPrefix t = false then []
    else
      let firstURL :=
        match protoStarts t with
        | _ :: j :: _ => t.take j
        | _ => t
      if (str "https://").isPrefixOf firstURL then
        parseCore (str "https") (firstURL.drop 8)
      else parseCore (str "http") (firstURL.drop 7)

/-- The known social/media hosts (main.go 1364-1380), checked as
case-insensitive substrings of the whole URL. -/
def isBadHost (u : GoStr) : Bool :=
  [str "facebook.com", str "instagram.com", str "twitter.com", str "x.com",
   str "bandcamp.com", str "soundcloud.com", str "youtube.com", str "tiktok.com",
   str "linktr.ee"].any (fun h => containsSub h (strToLower u))

/-- The selection over the sorted candidates (main.go 1350-1398): first
non-social candidate that normalizes, else the overall shortest candidate
normalized, else absent. -/
def pickFromCands (cands : List GoStr) : GoStr :=
  let sorted := sortCands cands
  match sorted.find? (fun u => !isBadHost u && !(normalizeURL u).isEmpty) with
  | some u => normalizeURL u
  | none =>
    match sorted with
    | [] => []
    | u :: _ => normalizeURL u

def notOnLabelMarker : GoStr := str "#Not_On_Label"

/-- `pickOfficialWebsite` (main.go 1319-1399). -/
def pickOfficialWebsite (urls : List GoStr) : GoStr :=
  if urls = [] then []
  else if urls.any (fun raw => containsSub notOnLabelMarker raw) then []
  else pickFromCands (collectCands urls)

/-- The candidates that are neither on a social host nor rejected by
`normalizeURL`. -/
def goodValidCands (urls : List GoStr) : List GoStr :=
  (collectCands urls).filter (fun u => !isBadHost u && !(normalizeURL u).isEmpty)

/-! ### The length-then-lexicographic order is a total order -/

lemma lexLe_nil_left (b : GoStr) : lexLe [] b = true := rfl

lemma lexLe_cons_nil (x : Char) (xs : GoStr) : lexLe (x :: xs) [] = false := rfl

lemma lexLe_cons (x y : Char) (xs ys : GoStr) :
    lexLe (x :: xs) (y :: ys) =
      if x < y then true else if y < x then false else lexLe xs ys := rfl

lemma lexLe_total : ∀ a b : GoStr, lexLe a b = true ∨ lexLe b a = true := by
  intro a
  induction a with
  | nil => intro b; exact Or.inl rfl
  | cons x xs ih =>
    intro b
    cases b with
    | nil => exact Or.inr rfl
    | cons y ys =>
      by_cases hxy : x < y
      · left; rw [lexLe_cons, if_pos hxy]
      · by_cases hyx : y < x
        · right; rw [lexLe_cons, if_pos hyx]
        · rcases ih ys with h | h
          · left; rw [lexLe_cons, if_neg hxy, if_neg hyx]; exact h
          · right; rw [lexLe_cons, if_neg hyx, if_neg hxy]; exact h

lemma lexLe_antisymm : ∀ a b : GoStr, lexLe a b = true → lexLe b a = true → a = b := by
  intro a
  induction a with
  | nil =>
    intro b _ h2
    cases b with
    | nil => rfl
    | cons y ys => rw [lexLe_cons_nil] at h2; cases h2
  | cons x xs ih =>
    intro b h1 h2
    cases b with
    | nil => rw [lexLe_cons_nil] at h1; cases h1
    | cons y ys =>
      rw [lexLe_cons] at h1 h2
      by_cases hxy : x < y
      · rw [if_neg (asymm hxy), if_pos hxy] at h2
        cases h2
      · by_cases hyx : y < x
        · rw [if_neg hxy, if_pos hyx] at h1
          cases h1
        · have hxy' : x = y := le_antisymm (not_lt.mp hyx) (not_lt.mp hxy)
          rw [if_neg hxy, if_neg hyx] at h1
          rw [if_neg hyx, if_neg hxy] at h2
          rw [hxy', ih ys h1 h2]

lemma lexLe_trans : ∀ a b c : GoStr,
    lexLe a b = true → lexLe b c = true → lexLe a c = true := by
  intro a
  induction a with
  | nil => intro b c _ _; rfl
  | cons x xs ih =>
    intro b c h1 h2
    cases b with
    | nil => rw [lexLe_cons_nil] at h1; cases h1
    | cons y ys =>
      cases c with
      | nil => rw [lexLe_cons_nil] at h2; cases h2
      | cons z zs =>
        rw [lexLe_cons] at h1 h2 ⊢
        by_cases hxy : x < y
        · by_cases hyz : y < z
          · rw [if_pos (lt_trans hxy hyz)]
          · by_cases hzy : z < y
            · rw [if_neg hyz, if_pos hzy] at h2
              cases h2
            · have hyz' : y = z := le_antisymm (not_lt.mp hzy) (not_lt.mp hyz)
              subst hyz'
              rw [if_pos hxy]
        · by_cases hyx : y < x
          · rw [if_neg hxy, if_pos hyx] at h1
            cases h1
          · have hxy' : x = y := le_antisymm (not_lt.mp hyx) (not_lt.mp hxy)
            subst hxy'
            rw [if_neg hxy, if_neg hyx] at h1
            by_cases hxz : x < z
            · rw [if_pos hxz]
            · by_cases hzx : z < x
              · rw [if_neg hxz, if_pos hzx] at h2
                cases h2
              · rw [if_neg hxz, if_neg hzx] at h2 ⊢
                exact ih ys zs h1 h2

lemma lenLexLe_total (a b : GoStr) : lenLexLe a b = true ∨ lenLexLe b a = true := by
  unfold lenLexLe
  by_cases h : a.length = b.length
  · rw [if_pos h, if_pos h.symm]
    exact lexLe_total a b
  · rw [if_neg h, if_neg (fun he => h he.symm)]
    rcases Nat.lt_or_ge a.length b.length with hl | hl
    · exact Or.inl (decide_eq_true hl)
    · exact Or.inr (decide_eq_true (lt_of_le_of_ne hl (fun he => h he.symm)))

lemma lenLexLe_antisymm (a b : GoStr)
    (h1 : lenLexLe a b = true) (h2 : lenLexLe b a = true) : a = b := by
  unfold lenLexLe at h1 h2
  by_cases h : a.length = b.length
  · rw [if_pos h] at h1
    rw [if_pos h.symm] at h2
    exact lexLe_antisymm a b h1 h2
  · rw [if_neg h] at h1
    rw [if_neg (fun he => h he.symm)] at h2
    have := of_decide_eq_true h1
    have := of_decide_eq_true h2
    omega

lemma lenLexLe_trans (a b c : GoStr)
    (h1 : lenLexLe a b = true) (h2 : lenLexLe b c = true) : lenLexLe a c = true := by
  unfold lenLexLe at h1 h2 ⊢
  by_cases hab : a.length = b.length
  · rw [if_pos hab] at h1
    by_cases hbc : b.length = c.length
    · rw [if_pos hbc] at h2
      rw [if_pos (hab.trans hbc)]
      exact lexLe_trans a b c h1 h2
    · rw [if_neg hbc] at h2
      have := of_decide_eq_true h2
      rw [if_neg (by omega)]
      exact decide_eq_true (by omega)
  · rw [if_neg hab] at h1
    have hab' := of_decide_eq_true h1
    by_cases hbc : b.length = c.length
    · rw [if_neg (by omega)]
      exact decide_eq_true (by omega)
    · rw [if_neg hbc] at h2
      have hbc' := of_decide_eq_true h2
      rw [if_neg (by omega)]
      exact decide_eq_true (by omega)

/-- The selection order as a relation. -/
abbrev LenLexR (a b : GoStr) : Prop := lenLexLe a b = true

instance : IsAntisymm GoStr LenLexR := ⟨lenLexLe_antisymm⟩

lemma insertSorted_perm (u : GoStr) (l : List GoStr) :
    (insertSorted u l).Perm (u :: l) := by
  induction l with
  | nil => exact List.Perm.refl _
  | cons v rest ih =>
    unfold insertSorted
    by_cases h : lenLexLe u v = true
    · rw [if_pos h]
    · rw [if_neg h]
      exact (ih.cons v).trans (List.Perm.swap u v rest)

lemma sortCands_perm (l : List GoStr) : (sortCands l).Perm l := by
  induction l with
  | nil => exact List.Perm.refl _
  | cons u rest ih =>
    exact (insertSorted_perm u (sortCands rest)).trans (ih.cons u)

lemma insertSorted_sorted (u : GoStr) (l : List GoStr)
    (h : List.Sorted LenLexR l) : List.Sorted LenLexR (insertSorted u l) := by
  induction l with
  | nil => exact List.sorted_singleton u
  | cons v rest ih =>
    rw [List.sorted_cons] at h
    unfold insertSorted
    by_cases hle : lenLexLe u v = true
    · rw [if_pos hle, List.sorted_cons]
      refine ⟨?_, List.sorted_cons.mpr h⟩
      intro b hb
      rcases List.mem_cons.mp hb with rfl | hb
      · exact hle
      · exact lenLexLe_trans u v b hle (h.1 b hb)
    · rw [if_neg hle, List.sorted_cons]
      refine ⟨?_, ih h.2⟩
      intro b hb
      have hb' : b ∈ u :: rest := (insertSorted_perm u rest).mem_iff.mp hb
      rcases List.mem_cons.mp hb' with heq | hb'
      · rw [heq]
        rcases lenLexLe_total u v with ht | ht
        · exact absurd ht hle
        · exact ht
      · exact h.1 b hb'

lemma sortCands_sorted (l : List GoStr) : List.Sorted LenLexR (sortCands l) := by
  induction l with
  | nil => exact List.sorted_nil
  | cons u rest ih => exact insertSorted_sorted u (sortCands rest) ih

lemma sortCands_eq_of_perm {l1 l2 : List GoStr} (h : l1.Perm l2) :
    sortCands l1 = sortCands l2 :=
  List.eq_of_perm_of_sorted
    ((sortCands_perm l1).trans (h.trans (sortCands_perm l2).symm))
    (sortCands_sorted l1) (sortCands_sorted l2)

/-- In an ascending list, `find?` returns the minimum among the elements
satisfying the predicate. -/
lemma find?_of_sorted_min (p : GoStr → Bool) :
    ∀ l : List GoStr, List.Sorted LenLexR l → ∀ u, u ∈ l → p u = true →
      (∀ v ∈ l, p v = true → lenLexLe u v = true) → l.find? p = some u := by
  intro l
  induction l with
  | nil => intro _ u hu; cases hu
  | cons h t ih =>
    intro hs u hu hp hmin
    rw [List.sorted_cons] at hs
    by_cases hph : p h = true
    · rw [List.find?_cons_of_pos t hph]
      rcases List.mem_cons.mp hu with rfl | hut
      · rfl
      · have h1 : lenLexLe h u = true := hs.1 u hut
        have h2 : lenLexLe u h = true := hmin h (List.mem_cons_self _ _) hph
        rw [lenLexLe_antisymm u h h2 h1]
    · rw [List.find?_cons_of_neg t hph]
      rcases List.mem_cons.mp hu with rfl | hut
      · exact absurd hp hph
      · exact ih hs.2 u hut hp (fun v hv hpv => hmin v (List.mem_cons_of_mem _ hv) hpv)

lemma pickFromCands_eq_min (cands : List GoStr) (u : GoStr)
    (hu : u ∈ cands.filter (fun v => !isBadHost v && !(normalizeURL v).isEmpty))
    (hmin : ∀ v ∈ cands.filter (fun v => !isBadHost v && !(normalizeURL v).isEmpty),
      lenLexLe u v = true) :
    pickFromCands cands = normalizeURL u := by
  have hmem : u ∈ cands := (List.mem_filter.mp hu).1
  have hp : (!isBadHost u && !(normalizeURL u).isEmpty) = true := (List.mem_filter.mp hu).2
  have hfind : (sortCands cands).find? (fun v => !isBadHost v && !(normalizeURL v).isEmpty) =
      some u := by
    refine find?_of_sorted_min _ (sortCands cands) (sortCands_sorted cands) u
      ((sortCands_perm cands).mem_iff.mpr hmem) hp ?_
    intro v hv hpv
    exact hmin v (List.mem_filter.mpr ⟨(sortCands_perm cands).mem_iff.mp hv, hpv⟩)
  simp only [pickFromCands]
  rw [hfind]

/-- Claim C5 (amended): a list containing the "not on label" marker always
resolves to absent, and otherwise, whenever some candidate survives the
social-host filter and URL validation, the picker returns the normalization
of the (length, then lexicographic) minimum of those surviving candidates.
When no candidate survives, the code falls back to the overall shortest
candidate — which may be on a social/media host (see the counterexample) —
rather than returning absent. -/
theorem claim_C5 (urls : List GoStr) (u : GoStr)
    (hm : urls.any (fun raw => containsSub notOnLabelMarker raw) = false)
    (hu : u ∈ goodValidCands urls)
    (hmin : ∀ v ∈ goodValidCands urls, lenLexLe u v = true) :
    (∀ badUrls : List GoStr,
      badUrls.any (fun raw => containsSub notOnLabelMarker raw) = true →
      pickOfficialWebsite badUrls = []) ∧
    pickOfficialWebsite urls = normalizeURL u := by
  constructor
  · intro badUrls hb
    unfold pickOfficialWebsite
    by_cases he : badUrls = []
    · subst he
      cases hb
    · rw [if_neg he, if_pos hb]
  · unfold pickOfficialWebsite
    have hne : urls ≠ [] := by
      intro he
      subst he
      cases hu
    rw [if_neg hne, if_neg (by rw [hm]; exact Bool.false_ne_true)]
    exact pickFromCands_eq_min (collectCands urls) u hu hmin

/-- Claim C5, as stated, is false on the code: when every candidate sits on
a social/media host the fallback still returns one of them, so the result
can be a social-host URL instead of absent. -/
theorem claim_C5_counterexample :
    pickOfficialWebsite [str "http://facebook.com/x"] = str "http://facebook.com/x" ∧
    pickOfficialWebsite [str "http://facebook.com/x"] ≠ [] ∧
    containsSub (str "facebook.com") (pickOfficialWebsite [str "http://facebook.com/x"]) =
      true := by
  refine ⟨by decide, by decide, by decide⟩

theorem claim_C5_witness :
    pickOfficialWebsite [str "facebook.com/x", str "http://label.example.com/"] =
      str "http://label.example.com/" :=
  ((claim_C5 [str "facebook.com/x", str "http://label.example.com/"]
    (str "http://label.example.com/") (by decide) (by decide) (by decide)).2).trans
    (by decide)

/-- Claim C10: the picker is deterministic — the selection after candidate
collection depends only on the candidate set, not on the arbitrary order
the Go map hands its keys to the stable sort.  Feeding any two orderings
of the collected candidate set to the sort-and-select stage produces the
same result, because the (length, lexicographic) comparison is a total
order, so the sorted sequence is unique. -/
theorem claim_C10 (urls : List GoStr) (cands1 cands2 : List GoStr)
    (h1 : cands1.Perm (collectCands urls)) (h2 : cands2.Perm (collectCands urls)) :
    pickFromCands cands1 = pickFromCands cands2 := by
  have hs : sortCands cands1 = sortCands cands2 :=
    sortCands_eq_of_perm (h1.trans h2.symm)
  simp only [pickFromCands]
  rw [hs]

theorem claim_C10_witness :
    pickFromCands (collectCands [str "facebook.com/x", str "http://label.example.com/"]) =
      pickFromCands
        ((collectCands [str "facebook.com/x", str "http://label.example.com/"]).reverse) :=
  claim_C10 [str "facebook.com/x", str "http://label.example.com/"] _ _
    (List.Perm.refl _) (List.reverse_perm _)

end Blastbeat
